import Mathlib

/-!
Verification of the CAR ingestion / pin-status core of filecoin.storage.

The sections below give a shallow embedding of:
  * `packages/api/src/utils/parse-cid.js` (`parseCid`), together with an
    executable model of the `multiformats` CID parsing/encoding it calls
    (multibase base32 / base58btc, unsigned varints, multihash framing);
  * `packages/api/src/pins.js` (`getPinningAPIStatus`, `pinsGet`);
  * `packages/api/src/car.js` (`carStat`, `cumulativeSize`,
    `handleCarUpload` and the pin-status reconciliation task it schedules);
  * `packages/api/src/status.js` (`statusGet`).
Machine integers are modelled as `Nat` (sizes and byte values are
non-negative and stay far below 2^53 in all code paths considered), byte
arrays as `List Nat` with values `< 256`, and fallible code as
`Except`/`Option`.
-/

/-! ### Bit-level helpers for the base32 multibase codec

`multiformats` implements RFC 4648 base32 (lowercase, no padding) by
streaming bits: bytes are emitted MSB-first, regrouped into 5-bit chunks
(the last chunk zero-padded), and on decode the leftover bits must be
fewer than five and all zero. We model the bit stream as `List Bool`,
most significant bit first. -/

/-- Value of a bit string, most significant bit first. -/
def bitsVal : List Bool → Nat
  | [] => 0
  | b :: l => (if b then 1 else 0) * 2 ^ l.length + bitsVal l

/-- The `w` low bits of `n`, most significant first. -/
def natBits : Nat → Nat → List Bool
  | 0, _ => []
  | w + 1, n => decide (n / 2 ^ w % 2 = 1) :: natBits w n

theorem natBits_length (w n : Nat) : (natBits w n).length = w := by
  induction w generalizing n with
  | zero => rfl
  | succ w ih => simp [natBits, ih]

theorem bitsVal_lt (l : List Bool) : bitsVal l < 2 ^ l.length := by
  induction l with
  | nil => simp [bitsVal]
  | cons b l ih =>
    simp only [bitsVal, List.length_cons, pow_succ]
    rcases b <;> simp <;> omega

theorem bitsVal_natBits (w n : Nat) : bitsVal (natBits w n) = n % 2 ^ w := by
  induction w generalizing n with
  | zero => simp [natBits, bitsVal, Nat.mod_one]
  | succ w ih =>
    have h2 : n / 2 ^ w % 2 < 2 := Nat.mod_lt _ (by omega)
    have hb : (if decide (n / 2 ^ w % 2 = 1) = true then 1 else 0) = n / 2 ^ w % 2 := by
      interval_cases h : n / 2 ^ w % 2 <;> simp
    simp only [natBits, bitsVal, natBits_length, ih, Nat.mod_pow_succ, hb]
    ring

theorem natBits_high_irrelevant (w c m : Nat) :
    natBits w (c * 2 ^ w + m) = natBits w m := by
  induction w generalizing c m with
  | zero => rfl
  | succ w ih =>
    have hrw : c * 2 ^ (w + 1) + m = m + c * 2 * 2 ^ w := by ring
    simp only [natBits, hrw]
    have hdiv : (m + c * 2 * 2 ^ w) / 2 ^ w = m / 2 ^ w + c * 2 :=
      Nat.add_mul_div_right m (c * 2) (by positivity)
    have hmod : (m / 2 ^ w + c * 2) % 2 = m / 2 ^ w % 2 :=
      Nat.add_mul_mod_self_right _ _ _
    have htail : natBits w (m + c * 2 * 2 ^ w) = natBits w m := by
      have h : m + c * 2 * 2 ^ w = c * 2 * 2 ^ w + m := by ring
      rw [h, ih]
    rw [hdiv, hmod, htail]

theorem natBits_bitsVal (l : List Bool) : natBits l.length (bitsVal l) = l := by
  induction l with
  | nil => rfl
  | cons b l ih =>
    have hlt := bitsVal_lt l
    simp only [bitsVal, List.length_cons, natBits]
    have hdiv : ((if b then 1 else 0) * 2 ^ l.length + bitsVal l) / 2 ^ l.length
        = if b then 1 else 0 := by
      rw [Nat.add_comm, Nat.add_mul_div_right _ _ (show 0 < 2 ^ l.length by positivity),
        Nat.div_eq_of_lt hlt, Nat.zero_add]
    have hhead : decide (((if b then 1 else 0) * 2 ^ l.length + bitsVal l) / 2 ^ l.length % 2 = 1)
        = b := by
      rw [hdiv]; rcases b <;> simp
    have htail : natBits l.length ((if b then 1 else 0) * 2 ^ l.length + bitsVal l) = l := by
      rw [natBits_high_irrelevant, ih]
    rw [hhead, htail]

/-- Split a bit stream into 5-bit chunks, zero-padding the last chunk
(the regrouping loop of the RFC 4648 encoder in `multiformats`). -/
def chunks5 : List Bool → List (List Bool)
  | [] => []
  | b1 :: b2 :: b3 :: b4 :: b5 :: rest => [b1, b2, b3, b4, b5] :: chunks5 rest
  | [b1] => [[b1, false, false, false, false]]
  | [b1, b2] => [[b1, b2, false, false, false]]
  | [b1, b2, b3] => [[b1, b2, b3, false, false]]
  | [b1, b2, b3, b4] => [[b1, b2, b3, b4, false]]

theorem chunks5_mem_length {c : List Bool} {l : List Bool} (h : c ∈ chunks5 l) :
    c.length = 5 := by
  induction l using chunks5.induct with
  | case1 => simp [chunks5] at h
  | case2 b1 b2 b3 b4 b5 rest ih =>
    rw [chunks5] at h
    rcases List.mem_cons.mp h with h | h
    · subst h; rfl
    · exact ih h
  | case3 b1 => rw [chunks5] at h; simp at h; subst h; rfl
  | case4 b1 b2 => rw [chunks5] at h; simp at h; subst h; rfl
  | case5 b1 b2 b3 => rw [chunks5] at h; simp at h; subst h; rfl
  | case6 b1 b2 b3 b4 => rw [chunks5] at h; simp at h; subst h; rfl

theorem chunks5_flatten (l : List Bool) :
    (chunks5 l).flatten = l ++ List.replicate ((5 - l.length % 5) % 5) false := by
  induction l using chunks5.induct with
  | case1 => rfl
  | case2 b1 b2 b3 b4 b5 rest ih =>
    rw [chunks5, List.flatten_cons, ih]
    have hmod : (5 - (b1 :: b2 :: b3 :: b4 :: b5 :: rest).length % 5) % 5
        = (5 - rest.length % 5) % 5 := by
      simp only [List.length_cons]
      omega
    rw [hmod]
    rfl
  | case3 b1 => rfl
  | case4 b1 b2 => rfl
  | case5 b1 b2 b3 => rfl
  | case6 b1 b2 b3 b4 => rfl

/-- Regroup a bit stream into bytes (8 bits each, MSB first); returns the
bytes together with the leftover bits (fewer than 8). -/
def bitsToBytes : List Bool → List Nat × List Bool
  | b1 :: b2 :: b3 :: b4 :: b5 :: b6 :: b7 :: b8 :: rest =>
    (bitsVal [b1, b2, b3, b4, b5, b6, b7, b8] :: (bitsToBytes rest).1, (bitsToBytes rest).2)
  | l => ([], l)

theorem bitsToBytes_short (l : List Bool) (h : l.length < 8) : bitsToBytes l = ([], l) := by
  rcases l with _ | ⟨a1, _ | ⟨a2, _ | ⟨a3, _ | ⟨a4, _ | ⟨a5, _ | ⟨a6, _ | ⟨a7, _ | ⟨a8, t⟩⟩⟩⟩⟩⟩⟩⟩
  all_goals first
  | rfl
  | (exfalso; simp only [List.length_cons] at h; omega)

theorem bitsToBytes_bytes_lt (l : List Bool) : ∀ x ∈ (bitsToBytes l).1, x < 256 := by
  induction l using bitsToBytes.induct with
  | case1 b1 b2 b3 b4 b5 b6 b7 b8 rest ih =>
    intro x hx
    rw [bitsToBytes] at hx
    simp only [List.mem_cons] at hx
    rcases hx with hx | hx
    · subst hx
      have hlt := bitsVal_lt [b1, b2, b3, b4, b5, b6, b7, b8]
      simpa using hlt
    · exact ih x hx
  | case2 l h =>
    intro x hx
    have hl : bitsToBytes l = ([], l) := by
      rcases l with _ | ⟨a1, _ | ⟨a2, _ | ⟨a3, _ | ⟨a4, _ | ⟨a5, _ | ⟨a6, _ | ⟨a7, _ | ⟨a8, t⟩⟩⟩⟩⟩⟩⟩⟩
      all_goals first
      | rfl
      | (exact absurd rfl (h _ _ _ _ _ _ _ _ _))
    rw [hl] at hx
    simp at hx

theorem natBits8_explicit (b : Nat) : natBits 8 b
    = [decide (b / 2 ^ 7 % 2 = 1), decide (b / 2 ^ 6 % 2 = 1), decide (b / 2 ^ 5 % 2 = 1),
       decide (b / 2 ^ 4 % 2 = 1), decide (b / 2 ^ 3 % 2 = 1), decide (b / 2 ^ 2 % 2 = 1),
       decide (b / 2 ^ 1 % 2 = 1), decide (b / 2 ^ 0 % 2 = 1)] := rfl

theorem bitsToBytes_append (B : List Nat) (extra : List Bool)
    (hB : ∀ b ∈ B, b < 256) (hx : extra.length < 8) :
    bitsToBytes (B.flatMap (natBits 8) ++ extra) = (B, extra) := by
  induction B with
  | nil =>
    simp only [List.flatMap_nil, List.nil_append]
    exact bitsToBytes_short extra hx
  | cons b B ih =>
    have harr : (b :: B).flatMap (natBits 8) ++ extra
        = natBits 8 b ++ (B.flatMap (natBits 8) ++ extra) := by
      simp [List.flatMap_cons, List.append_assoc]
    rw [harr, natBits8_explicit]
    simp only [List.cons_append, List.nil_append]
    rw [bitsToBytes]
    have hval : bitsVal [decide (b / 2 ^ 7 % 2 = 1), decide (b / 2 ^ 6 % 2 = 1),
        decide (b / 2 ^ 5 % 2 = 1), decide (b / 2 ^ 4 % 2 = 1), decide (b / 2 ^ 3 % 2 = 1),
        decide (b / 2 ^ 2 % 2 = 1), decide (b / 2 ^ 1 % 2 = 1), decide (b / 2 ^ 0 % 2 = 1)]
        = b := by
      rw [← natBits8_explicit, bitsVal_natBits]
      exact Nat.mod_eq_of_lt (by simpa using hB b (List.mem_cons_self b B))
    have hrec := ih (fun x hxB => hB x (List.mem_cons_of_mem _ hxB))
    rw [hval, hrec]

/-! ### The base32 multibase codec (prefix `b`), as used by `multiformats` -/

/-- RFC 4648 base32 alphabet, lowercase, as used by the `b` multibase. -/
def BASE32_ALPHABET : List Char := "abcdefghijklmnopqrstuvwxyz234567".data

def enc32char (v : Nat) : Char := BASE32_ALPHABET.getD v 'a'

def dec32char (c : Char) : Option Nat := BASE32_ALPHABET.findIdx? (fun a => a == c)

theorem dec32char_enc32char : ∀ v : Nat, v < 32 → dec32char (enc32char v) = some v := by
  decide

/-- Base32-encode a byte string (no padding characters). -/
def encodeBase32 (B : List Nat) : List Char :=
  (chunks5 (B.flatMap (natBits 8))).map (fun c => enc32char (bitsVal c))

/-- Base32-decode a character string; fails on characters outside the
alphabet and when the leftover bits are five or more or nonzero, exactly
as the `multiformats` RFC 4648 decoder does. -/
def decodeBase32 (s : List Char) : Option (List Nat) :=
  (s.mapM dec32char).bind (fun vals =>
    let bb := bitsToBytes (vals.flatMap (natBits 5))
    if 5 ≤ bb.2.length ∨ bb.2.any (fun b => b) = true then none else some bb.1)

theorem mapM_dec32_enc32 : ∀ vs : List Nat, (∀ v ∈ vs, v < 32) →
    (vs.map enc32char).mapM dec32char = some vs := by
  intro vs
  induction vs with
  | nil => intro _; rfl
  | cons v vs ih =>
    intro h
    rw [List.map_cons, List.mapM_cons, dec32char_enc32char v (h v (List.mem_cons_self v vs)),
      ih (fun x hx => h x (List.mem_cons_of_mem _ hx))]
    rfl

theorem flatMap_natBits5_flatten : ∀ chunks : List (List Bool),
    (∀ c ∈ chunks, c.length = 5) →
    chunks.flatMap (fun c => natBits 5 (bitsVal c)) = chunks.flatten := by
  intro chunks
  induction chunks with
  | nil => intro _; rfl
  | cons c chunks ih =>
    intro h
    have hc : c.length = 5 := h c (List.mem_cons_self c chunks)
    rw [List.flatMap_cons, List.flatten_cons, ih (fun x hx => h x (List.mem_cons_of_mem _ hx))]
    congr 1
    rw [← hc, natBits_bitsVal]

theorem decodeBase32_encodeBase32 (B : List Nat) (hB : ∀ b ∈ B, b < 256) :
    decodeBase32 (encodeBase32 B) = some B := by
  have hchl : ∀ c ∈ chunks5 (B.flatMap (natBits 8)), c.length = 5 :=
    fun c hc => chunks5_mem_length hc
  have hvals : ∀ v ∈ (chunks5 (B.flatMap (natBits 8))).map bitsVal, v < 32 := by
    intro v hv
    rcases List.mem_map.mp hv with ⟨c, hc, hvc⟩
    have hcl := bitsVal_lt c
    rw [hchl c hc] at hcl
    omega
  have hmap : encodeBase32 B = ((chunks5 (B.flatMap (natBits 8))).map bitsVal).map enc32char := by
    rw [encodeBase32, List.map_map]; rfl
  have hflat : ((chunks5 (B.flatMap (natBits 8))).map bitsVal).flatMap (natBits 5)
      = B.flatMap (natBits 8)
        ++ List.replicate ((5 - (B.flatMap (natBits 8)).length % 5) % 5) false := by
    rw [List.flatMap_map]
    rw [flatMap_natBits5_flatten _ hchl, chunks5_flatten]
  have hplt : (5 - (B.flatMap (natBits 8)).length % 5) % 5 < 8 := by omega
  have hbb : bitsToBytes (B.flatMap (natBits 8)
        ++ List.replicate ((5 - (B.flatMap (natBits 8)).length % 5) % 5) false)
      = (B, List.replicate ((5 - (B.flatMap (natBits 8)).length % 5) % 5) false) :=
    bitsToBytes_append B _ hB (by rw [List.length_replicate]; exact hplt)
  simp only [decodeBase32, hmap, mapM_dec32_enc32 _ hvals, Option.some_bind, hflat, hbb]
  rw [if_neg]
  push_neg
  refine ⟨?_, ?_⟩
  · rw [List.length_replicate]; omega
  · simp [List.any_eq_true]

/-! ### The base58btc multibase codec (prefix `z`), decode direction

`parseCid` only ever re-encodes via base32 (the default string form of a
v1 CID), so base58btc is modelled in the decode direction only, following
the big-number algorithm of `base-x` used by `multiformats`: leading `1`
characters become leading zero bytes, the remaining digits are
accumulated into one natural number emitted as base-256 digits. -/

def BASE58_ALPHABET : List Char :=
  "123456789ABCDEFGHJKLMNPQRSTUVWXYZabcdefghijkmnopqrstuvwxyz".data

def dec58char (c : Char) : Option Nat := BASE58_ALPHABET.findIdx? (fun a => a == c)

/-- Big-endian base-256 digits of a natural number (empty for zero);
structural recursion on a fuel argument always instantiated to the number
itself (`n / 256 < n` keeps the fuel sufficient, so the fuel-exhausted
arm is unreachable). -/
def natToBase256F : Nat → Nat → List Nat
  | _, 0 => []
  | 0, _ + 1 => []
  | f + 1, n + 1 => natToBase256F f ((n + 1) / 256) ++ [(n + 1) % 256]

def natToBase256 (n : Nat) : List Nat := natToBase256F n n

theorem natToBase256F_lt (f : Nat) : ∀ n, ∀ x ∈ natToBase256F f n, x < 256 := by
  induction f with
  | zero =>
    intro n x hx
    match n with
    | 0 => simp [natToBase256F] at hx
    | n + 1 => simp [natToBase256F] at hx
  | succ f ih =>
    intro n x hx
    match n with
    | 0 => simp [natToBase256F] at hx
    | n + 1 =>
      rw [natToBase256F] at hx
      rcases List.mem_append.mp hx with hx | hx
      · exact ih _ x hx
      · have hx' : x = (n + 1) % 256 := by simpa using hx
        subst hx'
        exact Nat.mod_lt _ (by omega)

theorem natToBase256_lt (n : Nat) : ∀ x ∈ natToBase256 n, x < 256 :=
  natToBase256F_lt n n

def decodeBase58 (s : List Char) : Option (List Nat) :=
  (s.mapM dec58char).map (fun vals =>
    List.replicate (s.takeWhile (fun c => c == '1')).length 0
      ++ natToBase256 (vals.foldl (fun acc v => acc * 58 + v) 0))

theorem decodeBase58_lt (s : List Char) (B : List Nat) (h : decodeBase58 s = some B) :
    ∀ x ∈ B, x < 256 := by
  rw [decodeBase58] at h
  rcases hm : s.mapM dec58char with _ | vals
  · rw [hm] at h; simp at h
  · rw [hm] at h
    injection h with h'
    intro x hx
    rw [← h'] at hx
    rcases List.mem_append.mp hx with hx | hx
    · have := List.eq_of_mem_replicate hx
      omega
    · exact natToBase256_lt _ x hx

/-! ### Unsigned varints (multiformats `varint`) -/

/-- LEB128 encoding; structural recursion on a fuel argument always
instantiated to the number itself (the fuel-exhausted arm coincides with
the base case, so any fuel `≥ n` gives the same answer). -/
def encodeVarintF : Nat → Nat → List Nat
  | 0, n => [n % 128]
  | f + 1, n => if n < 128 then [n] else (n % 128 + 128) :: encodeVarintF f (n / 128)

def encodeVarint (n : Nat) : List Nat := encodeVarintF n n

def decodeVarint : List Nat → Option (Nat × List Nat)
  | [] => none
  | b :: rest =>
    if b < 128 then some (b, rest)
    else (decodeVarint rest).map (fun p => (p.1 * 128 + (b - 128), p.2))

theorem encodeVarintF_irrel (n : Nat) : ∀ f g, n ≤ f → n ≤ g →
    encodeVarintF f n = encodeVarintF g n := by
  induction n using Nat.strong_induction_on with
  | _ n ih =>
    intro f g hf hg
    match f, g with
    | 0, 0 => rfl
    | 0, g + 1 =>
      have h0 : n = 0 := by omega
      subst h0; rfl
    | f + 1, 0 =>
      have h0 : n = 0 := by omega
      subst h0; rfl
    | f + 1, g + 1 =>
      by_cases h : n < 128
      · rw [encodeVarintF, encodeVarintF, if_pos h, if_pos h]
      · rw [encodeVarintF, encodeVarintF, if_neg h, if_neg h]
        have hlt : n / 128 < n := Nat.div_lt_self (by omega) (by omega)
        rw [ih (n / 128) hlt f g (by omega) (by omega)]

theorem encodeVarint_eq (n : Nat) :
    encodeVarint n = if n < 128 then [n] else (n % 128 + 128) :: encodeVarint (n / 128) := by
  show encodeVarintF n n = _
  match n with
  | 0 => rfl
  | m + 1 =>
    rw [encodeVarintF]
    by_cases h : m + 1 < 128
    · rw [if_pos h, if_pos h]
    · rw [if_neg h, if_neg h]
      have hlt : (m + 1) / 128 < m + 1 := Nat.div_lt_self (by omega) (by omega)
      rw [encodeVarintF_irrel ((m + 1) / 128) m ((m + 1) / 128) (by omega) (by omega)]
      rfl

theorem encodeVarint_lt (n : Nat) : ∀ x ∈ encodeVarint n, x < 256 := by
  induction n using Nat.strong_induction_on with
  | _ n ih =>
    rw [encodeVarint_eq]
    by_cases h : n < 128
    · rw [if_pos h]
      intro x hx
      have hxn : x = n := by simpa using hx
      omega
    · rw [if_neg h]
      intro x hx
      rcases List.mem_cons.mp hx with hx | hx
      · have h128 : n % 128 < 128 := Nat.mod_lt _ (by omega)
        omega
      · exact ih (n / 128) (Nat.div_lt_self (by omega) (by omega)) x hx

theorem decodeVarint_encodeVarint (n : Nat) (rest : List Nat) :
    decodeVarint (encodeVarint n ++ rest) = some (n, rest) := by
  induction n using Nat.strong_induction_on with
  | _ n ih =>
    rw [encodeVarint_eq]
    by_cases h : n < 128
    · rw [if_pos h]; simp [decodeVarint, h]
    · rw [if_neg h]
      have hb : ¬ (n % 128 + 128 < 128) := by omega
      rw [List.cons_append, decodeVarint, if_neg hb,
        ih (n / 128) (Nat.div_lt_self (by omega) (by omega))]
      show some (n / 128 * 128 + (n % 128 + 128 - 128), rest) = some (n, rest)
      have hn : n / 128 * 128 + (n % 128 + 128 - 128) = n := by omega
      rw [hn]

theorem decodeVarint_sub (l : List Nat) (n : Nat) (r : List Nat)
    (h : decodeVarint l = some (n, r)) : ∀ x ∈ r, x ∈ l := by
  induction l generalizing n r with
  | nil => simp [decodeVarint] at h
  | cons b l ih =>
    rw [decodeVarint] at h
    by_cases hb : b < 128
    · rw [if_pos hb] at h
      injection h with h'
      have hr : l = r := congrArg Prod.snd h'
      intro x hx
      rw [← hr] at hx
      exact List.mem_cons_of_mem _ hx
    · rw [if_neg hb] at h
      rcases hd : decodeVarint l with _ | p
      · rw [hd] at h
        exact Option.noConfusion h
      · rw [hd] at h
        injection h with h'
        have hr : p.2 = r := congrArg Prod.snd h'
        intro x hx
        rw [← hr] at hx
        exact List.mem_cons_of_mem _ (ih p.1 p.2 hd x hx)

/-! ### CID model: `multiformats` CIDs and parse-cid.js -/

structure MCID where
  version : Nat
  codec : Nat
  multihash : List Nat
deriving DecidableEq, Repr

/-- Multihash framing: a hash-function code varint, a digest-size varint,
then exactly `size` digest bytes (`Digest.decode` in `multiformats`). -/
def validMultihash (mh : List Nat) : Bool :=
  match decodeVarint mh with
  | none => false
  | some (_, rest) =>
    match decodeVarint rest with
    | none => false
    | some (size, digest) => digest.length == size

/-- The dag-pb multicodec code (0x70). -/
def DAG_PB_CODE : Nat := 112

/-- Model of `CID.decode` on raw bytes: a leading varint 18 (0x12, the sha2-256
code) marks a v0 CID whose bytes are exactly its multihash; otherwise a
version varint (only 1 is accepted), a codec varint and the multihash. -/
def decodeCidBytes (bytes : List Nat) : Option MCID :=
  match decodeVarint bytes with
  | none => none
  | some (v, rest) =>
    if v = 18 then
      if validMultihash bytes then some ⟨0, DAG_PB_CODE, bytes⟩ else none
    else if v = 1 then
      match decodeVarint rest with
      | none => none
      | some (codec, mh) => if validMultihash mh then some ⟨1, codec, mh⟩ else none
    else none

/-- Model of `CID.parse`: dispatch on the leading character; the default decoders
accept `Q` (v0, base58btc of the whole string) plus the `z` and `b`
multibase prefixes only. -/
def cidParse (s : String) : Option MCID :=
  match s.data with
  | [] => none
  | c :: rest =>
    if c = 'Q' then (decodeBase58 s.data).bind decodeCidBytes
    else if c = 'z' then (decodeBase58 rest).bind decodeCidBytes
    else if c = 'b' then (decodeBase32 rest).bind decodeCidBytes
    else none

/-- Model of `CID.toV1`: a v0 CID is re-created as v1 dag-pb over the same
multihash; a v1 CID is returned unchanged. -/
def cidToV1 (c : MCID) : MCID :=
  if c.version = 0 then ⟨1, DAG_PB_CODE, c.multihash⟩ else c

/-- The default string form of a version-1 CID: `b` followed by the
base32 multibase of `varint(version) ++ varint(codec) ++ multihash`
(`CID.toString` with the default base32 encoder; `parseCid` only
stringifies `toV1` results, so only the v1 layout is needed). -/
def cidV1ToString (c : MCID) : String :=
  String.mk ('b' :: encodeBase32 (encodeVarint c.version ++ encodeVarint c.codec ++ c.multihash))

/-- Modelled from the spec: `InvalidCidError` (`packages/api/src/errors.js`
is not under `src/`); the spec's `InvalidIdentifier` input error, which
carries the offending identifier string. -/
structure InvalidCidError where
  cid : String
deriving DecidableEq, Repr

/-- Translation of `parseCid` (packages/api/src/utils/parse-cid.js): `CID.parse`, then
`.toV1().toString()`; any parse failure becomes `InvalidCidError`. -/
def parseCid (s : String) : Except InvalidCidError String :=
  match cidParse s with
  | none => .error ⟨s⟩
  | some c => .ok (cidV1ToString (cidToV1 c))

/-- Invariants satisfied by every successfully parsed CID. -/
def wellFormedCid (c : MCID) : Prop :=
  (c.version = 0 ∨ c.version = 1) ∧ validMultihash c.multihash = true
    ∧ ∀ x ∈ c.multihash, x < 256

theorem decodeBase32_lt (s : List Char) (B : List Nat) (h : decodeBase32 s = some B) :
    ∀ x ∈ B, x < 256 := by
  rw [decodeBase32] at h
  rcases hm : s.mapM dec32char with _ | vals
  · rw [hm] at h; exact Option.noConfusion h
  · rw [hm] at h
    have h' : (if 5 ≤ (bitsToBytes (vals.flatMap (natBits 5))).2.length
          ∨ (bitsToBytes (vals.flatMap (natBits 5))).2.any (fun b => b) = true
        then none else some ((bitsToBytes (vals.flatMap (natBits 5))).1)) = some B := h
    by_cases hc : 5 ≤ (bitsToBytes (vals.flatMap (natBits 5))).2.length
        ∨ (bitsToBytes (vals.flatMap (natBits 5))).2.any (fun b => b) = true
    · rw [if_pos hc] at h'; exact Option.noConfusion h'
    · rw [if_neg hc] at h'
      injection h' with h''
      rw [← h'']
      exact bitsToBytes_bytes_lt _

theorem decodeCidBytes_wf (bytes : List Nat) (c : MCID) (hB : ∀ x ∈ bytes, x < 256)
    (h : decodeCidBytes bytes = some c) : wellFormedCid c := by
  rw [decodeCidBytes] at h
  split at h
  · exact Option.noConfusion h
  · rename_i v rest h1
    split at h
    · split at h
      · rename_i hvm
        injection h with h'
        rw [← h']
        exact ⟨Or.inl rfl, hvm, hB⟩
      · exact Option.noConfusion h
    · split at h
      · rename_i hv18 hv1
        split at h
        · exact Option.noConfusion h
        · rename_i codec mh h2
          split at h
          · rename_i hvm
            injection h with h'
            rw [← h']
            refine ⟨Or.inr rfl, hvm, ?_⟩
            intro x hx
            have hx1 : x ∈ rest := decodeVarint_sub rest codec mh h2 x hx
            have hx2 : x ∈ bytes := decodeVarint_sub bytes v rest h1 x hx1
            exact hB x hx2
          · exact Option.noConfusion h
      · exact Option.noConfusion h

theorem cidParse_wf (s : String) (c : MCID) (h : cidParse s = some c) : wellFormedCid c := by
  rw [cidParse] at h
  split at h
  · exact Option.noConfusion h
  · rename_i ch rest hd
    split at h
    · rcases Option.bind_eq_some.mp h with ⟨B, hb, hc⟩
      exact decodeCidBytes_wf B c (decodeBase58_lt _ _ hb) hc
    · split at h
      · rcases Option.bind_eq_some.mp h with ⟨B, hb, hc⟩
        exact decodeCidBytes_wf B c (decodeBase58_lt _ _ hb) hc
      · split at h
        · rcases Option.bind_eq_some.mp h with ⟨B, hb, hc⟩
          exact decodeCidBytes_wf B c (decodeBase32_lt _ _ hb) hc
        · exact Option.noConfusion h

theorem cidToV1_wf (c : MCID) (h : wellFormedCid c) :
    wellFormedCid (cidToV1 c) ∧ (cidToV1 c).version = 1 := by
  obtain ⟨hver, hvm, hmh⟩ := h
  rw [cidToV1]
  rcases hver with h0 | h1
  · rw [if_pos h0]
    exact ⟨⟨Or.inr rfl, hvm, hmh⟩, rfl⟩
  · rw [if_neg (by omega)]
    exact ⟨⟨Or.inr h1, hvm, hmh⟩, h1⟩

theorem cidToV1_idem (c : MCID) (h : c.version = 1) : cidToV1 c = c := by
  rw [cidToV1, if_neg (by omega)]

theorem parseCid_eq_ok (s : String) (c : MCID) (h : cidParse s = some c) :
    parseCid s = .ok (cidV1ToString (cidToV1 c)) := by
  rw [parseCid, h]

theorem parseCid_eq_error (s : String) (h : cidParse s = none) :
    parseCid s = .error ⟨s⟩ := by
  rw [parseCid, h]

/-- Re-parsing the canonical v1 string form of a well-formed v1 CID
recovers the same CID. -/
theorem cidParse_canonical (c : MCID) (hwf : wellFormedCid c) (h1 : c.version = 1) :
    cidParse (cidV1ToString c) = some c := by
  obtain ⟨ver, codec, mh⟩ := c
  obtain ⟨hver, hvm, hmh⟩ := hwf
  have h1' : ver = 1 := h1
  subst h1'
  have hBlt : ∀ x ∈ encodeVarint 1 ++ encodeVarint codec ++ mh, x < 256 := by
    intro x hx
    rcases List.mem_append.mp hx with hx | hx
    · rcases List.mem_append.mp hx with hx | hx
      · exact encodeVarint_lt _ x hx
      · exact encodeVarint_lt _ x hx
    · exact hmh x hx
  show (decodeBase32 (encodeBase32 (encodeVarint 1 ++ encodeVarint codec ++ mh))).bind
      decodeCidBytes = some ⟨1, codec, mh⟩
  rw [decodeBase32_encodeBase32 _ hBlt]
  show decodeCidBytes (encodeVarint 1 ++ encodeVarint codec ++ mh) = some ⟨1, codec, mh⟩
  have hform : encodeVarint 1 ++ encodeVarint codec ++ mh
      = 1 :: (encodeVarint codec ++ mh) := by
    rw [List.append_assoc]
    rfl
  rw [hform]
  show (match decodeVarint (encodeVarint codec ++ mh) with
    | none => none
    | some (cc, m) => if validMultihash m = true then some (MCID.mk 1 cc m) else none)
      = some ⟨1, codec, mh⟩
  rw [decodeVarint_encodeVarint]
  show (if validMultihash mh = true then some (MCID.mk 1 codec mh) else none)
      = some ⟨1, codec, mh⟩
  rw [if_pos hvm]

/-- C8: CID normalization (`parseCid`) is deterministic (it is a pure
function of its input) and idempotent: whenever it succeeds its output
normalizes to itself; distinct multibase encodings of the same underlying
hash+codec normalize to one identical version-1 string; and every string
that does not parse as a CID fails with `InvalidCidError` carrying that
string. -/
theorem parseCid_normalization :
    (∀ s t : String, parseCid s = .ok t → parseCid t = .ok t)
    ∧ (∀ x y : String, ∀ cx cy : MCID, cidParse x = some cx → cidParse y = some cy →
        cidToV1 cx = cidToV1 cy → parseCid x = parseCid y)
    ∧ (∀ s t : String, parseCid s = .ok t → ∃ c : MCID, cidParse t = some c ∧ c.version = 1)
    ∧ (∀ s : String, cidParse s = none → parseCid s = .error ⟨s⟩) := by
  have hok : ∀ s t : String, parseCid s = .ok t →
      ∃ c : MCID, cidParse s = some c ∧ t = cidV1ToString (cidToV1 c) := by
    intro s t h
    rw [parseCid] at h
    split at h
    · exact Except.noConfusion h
    · rename_i c hc
      injection h with h'
      exact ⟨c, hc, h'.symm⟩
  refine ⟨?_, ?_, ?_, ?_⟩
  · intro s t h
    obtain ⟨c, hc, ht⟩ := hok s t h
    obtain ⟨hwf1, hv1⟩ := cidToV1_wf c (cidParse_wf s c hc)
    have hpt : cidParse t = some (cidToV1 c) := by
      rw [ht]
      exact cidParse_canonical (cidToV1 c) hwf1 hv1
    rw [parseCid_eq_ok t (cidToV1 c) hpt, cidToV1_idem (cidToV1 c) hv1, ← ht]
  · intro x y cx cy hx hy heq
    rw [parseCid_eq_ok x cx hx, parseCid_eq_ok y cy hy, heq]
  · intro s t h
    obtain ⟨c, hc, ht⟩ := hok s t h
    obtain ⟨hwf1, hv1⟩ := cidToV1_wf c (cidParse_wf s c hc)
    refine ⟨cidToV1 c, ?_, hv1⟩
    rw [ht]
    exact cidParse_canonical (cidToV1 c) hwf1 hv1
  · intro s h
    exact parseCid_eq_error s h

/-- A v0 CID string (base58btc, sha2-256 multihash with an all-zero
digest) and the v1 base32 string of the same hash and codec. -/
def qmZeroCid : String := "QmNLei78zWmzUdbeRB3CiUfAizWUrbeeZh5K1rhAQKCh51"

def b32ZeroCid : String := "bafybeiaaaaaaaaaaaaaaaaaaaaaaaaaaaaaaaaaaaaaaaaaaaaaaaaaaaa"

/-- Witness for C8 at concrete inputs: normalizing a v0 string yields the
v1 base32 string, normalization is idempotent there, the two distinct
encodings collapse to the same normal form, and a non-CID string fails. -/
theorem parseCid_normalization_witness :
    parseCid b32ZeroCid = .ok b32ZeroCid
    ∧ parseCid qmZeroCid = parseCid b32ZeroCid
    ∧ parseCid "not-a-cid" = .error ⟨"not-a-cid"⟩ := by
  have h1 : parseCid qmZeroCid = .ok b32ZeroCid := rfl
  have hx : cidParse qmZeroCid = some ⟨0, 112, [18, 32] ++ List.replicate 32 0⟩ := rfl
  have hy : cidParse b32ZeroCid = some ⟨1, 112, [18, 32] ++ List.replicate 32 0⟩ := rfl
  have heq : cidToV1 (⟨0, 112, [18, 32] ++ List.replicate 32 0⟩ : MCID)
      = cidToV1 ⟨1, 112, [18, 32] ++ List.replicate 32 0⟩ := rfl
  have hnone : cidParse "not-a-cid" = none := rfl
  exact ⟨parseCid_normalization.1 qmZeroCid b32ZeroCid h1,
    parseCid_normalization.2.1 qmZeroCid b32ZeroCid _ _ hx hy heq,
    parseCid_normalization.2.2.2 "not-a-cid" hnone⟩

/-! ### pins.js: pin status aggregator and pin-listing handler -/

/-- A persisted pin row as consumed by the aggregator (only the status
string matters there). -/
structure PinItem where
  status : String
deriving DecidableEq, Repr

/-- Translation of `getPinningAPIStatus` (packages/api/src/pins.js): collapse the pin
rows of a pin request onto one pinning-service status value, first
matching rule wins. -/
def getPinningAPIStatus (pins : List PinItem) : String :=
  let pinStatuses := pins.map (fun p => p.status)
  if pinStatuses.contains "Pinned" then "pinned"
  else if pinStatuses.contains "Pinning" then "pinning"
  else if pinStatuses.contains "PinQueued" || pinStatuses.contains "Remote" then "queued"
  else if pinStatuses.length == 0 then "queued"
  else "failed"

/-- C2 (amended): the aggregator returns exactly one of the four
pinning-service statuses by fixed precedence — any `Pinned` row yields
`pinned`; else any `Pinning` yields `pinning`; else any `PinQueued` or
`Remote` (or no rows at all) yields `queued`; anything else — including
the sharded variant, which the code does not special-case — yields
`failed`. -/
theorem getPinningAPIStatus_precedence (pins : List PinItem) :
    (getPinningAPIStatus pins = "pinned" ∨ getPinningAPIStatus pins = "pinning"
      ∨ getPinningAPIStatus pins = "queued" ∨ getPinningAPIStatus pins = "failed")
    ∧ (getPinningAPIStatus pins = "pinned" ↔ (∃ p ∈ pins, p.status = "Pinned"))
    ∧ (getPinningAPIStatus pins = "pinning" ↔
        ¬ (∃ p ∈ pins, p.status = "Pinned") ∧ (∃ p ∈ pins, p.status = "Pinning"))
    ∧ (getPinningAPIStatus pins = "queued" ↔
        ¬ (∃ p ∈ pins, p.status = "Pinned") ∧ ¬ (∃ p ∈ pins, p.status = "Pinning")
        ∧ ((∃ p ∈ pins, p.status = "PinQueued") ∨ (∃ p ∈ pins, p.status = "Remote")
            ∨ pins = []))
    ∧ (getPinningAPIStatus pins = "failed" ↔
        ¬ (∃ p ∈ pins, p.status = "Pinned") ∧ ¬ (∃ p ∈ pins, p.status = "Pinning")
        ∧ ¬ (∃ p ∈ pins, p.status = "PinQueued") ∧ ¬ (∃ p ∈ pins, p.status = "Remote")
        ∧ pins ≠ []) := by
  have hc : ∀ st : String, ((pins.map (fun p => p.status)).contains st = true)
      ↔ ∃ p ∈ pins, p.status = st := by
    intro st
    rw [List.elem_iff, List.mem_map]
  simp only [getPinningAPIStatus]
  by_cases h1 : (pins.map (fun p => p.status)).contains "Pinned" = true
  · rw [if_pos h1]
    have e1 := (hc _).mp h1
    refine ⟨Or.inl rfl, ⟨fun _ => e1, fun _ => rfl⟩, ?_, ?_, ?_⟩
    · exact ⟨fun hcontra => absurd hcontra (by decide), fun ⟨hn, _⟩ => absurd e1 hn⟩
    · exact ⟨fun hcontra => absurd hcontra (by decide), fun ⟨hn, _⟩ => absurd e1 hn⟩
    · exact ⟨fun hcontra => absurd hcontra (by decide), fun ⟨hn, _⟩ => absurd e1 hn⟩
  · rw [if_neg h1]
    have n1 : ¬ ∃ p ∈ pins, p.status = "Pinned" := fun hx => h1 ((hc _).mpr hx)
    by_cases h2 : (pins.map (fun p => p.status)).contains "Pinning" = true
    · rw [if_pos h2]
      have e2 := (hc _).mp h2
      refine ⟨Or.inr (Or.inl rfl), ?_, ⟨fun _ => ⟨n1, e2⟩, fun _ => rfl⟩, ?_, ?_⟩
      · exact ⟨fun hcontra => absurd hcontra (by decide), fun hx => absurd hx n1⟩
      · exact ⟨fun hcontra => absurd hcontra (by decide), fun ⟨_, hn2, _⟩ => absurd e2 hn2⟩
      · exact ⟨fun hcontra => absurd hcontra (by decide), fun ⟨_, hn2, _⟩ => absurd e2 hn2⟩
    · rw [if_neg h2]
      have n2 : ¬ ∃ p ∈ pins, p.status = "Pinning" := fun hx => h2 ((hc _).mpr hx)
      by_cases h3 : ((pins.map (fun p => p.status)).contains "PinQueued"
          || (pins.map (fun p => p.status)).contains "Remote") = true
      · rw [if_pos h3]
        have e3 : (∃ p ∈ pins, p.status = "PinQueued") ∨ (∃ p ∈ pins, p.status = "Remote") := by
          rcases Bool.or_eq_true_iff.mp h3 with h | h
          · exact Or.inl ((hc _).mp h)
          · exact Or.inr ((hc _).mp h)
        have e3' : (∃ p ∈ pins, p.status = "PinQueued") ∨ (∃ p ∈ pins, p.status = "Remote")
            ∨ pins = [] := by
          rcases e3 with h | h
          · exact Or.inl h
          · exact Or.inr (Or.inl h)
        refine ⟨Or.inr (Or.inr (Or.inl rfl)), ?_, ?_,
          ⟨fun _ => ⟨n1, n2, e3'⟩, fun _ => rfl⟩, ?_⟩
        · exact ⟨fun hcontra => absurd hcontra (by decide), fun hx => absurd hx n1⟩
        · exact ⟨fun hcontra => absurd hcontra (by decide), fun ⟨_, hx⟩ => absurd hx n2⟩
        · refine ⟨fun hcontra => absurd hcontra (by decide), fun ⟨_, _, hn3, hn4, _⟩ => ?_⟩
          rcases e3 with h | h
          · exact absurd h hn3
          · exact absurd h hn4
      · rw [if_neg h3]
        have hsplit := Bool.or_eq_false_iff.mp (Bool.not_eq_true _ |>.mp h3)
        have n3 : ¬ ∃ p ∈ pins, p.status = "PinQueued" := by
          intro hx
          have := (hc _).mpr hx
          rw [hsplit.1] at this
          exact Bool.noConfusion this
        have n4 : ¬ ∃ p ∈ pins, p.status = "Remote" := by
          intro hx
          have := (hc _).mpr hx
          rw [hsplit.2] at this
          exact Bool.noConfusion this
        by_cases h4 : ((pins.map (fun p => p.status)).length == 0) = true
        · rw [if_pos h4]
          have e4 : pins = [] := by
            have hlen : (pins.map (fun p => p.status)).length = 0 := by simpa using h4
            rw [List.length_map] at hlen
            exact List.eq_nil_of_length_eq_zero hlen
          refine ⟨Or.inr (Or.inr (Or.inl rfl)), ?_, ?_,
            ⟨fun _ => ⟨n1, n2, Or.inr (Or.inr e4)⟩, fun _ => rfl⟩, ?_⟩
          · exact ⟨fun hcontra => absurd hcontra (by decide), fun hx => absurd hx n1⟩
          · exact ⟨fun hcontra => absurd hcontra (by decide), fun ⟨_, hx⟩ => absurd hx n2⟩
          · exact ⟨fun hcontra => absurd hcontra (by decide), fun ⟨_, _, _, _, hne⟩ => absurd e4 hne⟩
        · rw [if_neg h4]
          have e4 : pins ≠ [] := by
            intro hnil
            subst hnil
            exact h4 rfl
          refine ⟨Or.inr (Or.inr (Or.inr rfl)), ?_, ?_, ?_,
            ⟨fun _ => ⟨n1, n2, n3, n4, e4⟩, fun _ => rfl⟩⟩
          · exact ⟨fun hcontra => absurd hcontra (by decide), fun hx => absurd hx n1⟩
          · exact ⟨fun hcontra => absurd hcontra (by decide), fun ⟨_, hx⟩ => absurd hx n2⟩
          · refine ⟨fun hcontra => absurd hcontra (by decide), fun ⟨_, _, hor⟩ => ?_⟩
            rcases hor with h | h | h
            · exact absurd h n3
            · exact absurd h n4
            · exact absurd h e4

/-- C2 counterexample: a replica reporting the sharded variant is NOT
treated as pinned by the code — `getPinningAPIStatus` maps a lone
`Sharded` row to `failed`, not `pinned` (the code only checks the literal
status `Pinned`; `Sharded` falls through to the final arm). -/
theorem getPinningAPIStatus_sharded_failed :
    getPinningAPIStatus [⟨"Sharded"⟩] = "failed"
    ∧ getPinningAPIStatus [⟨"Sharded"⟩] ≠ "pinned" := by
  refine ⟨rfl, ?_⟩
  intro h
  exact absurd h (by decide)

/-! ### pins.js: the pinsGet validation prologue -/

/-- A JavaScript request-parameter value, in the shapes the `pinsGet`
validations distinguish. -/
inductive JsVal
  | undef
  | str (s : String)
  | arr (vs : List JsVal)

/-- JavaScript truthiness for the shapes above (an empty string is falsy,
any array is truthy). -/
def JsVal.truthy : JsVal → Bool
  | .undef => false
  | .str s => !(s == "")
  | .arr _ => true

def JsVal.isString : JsVal → Bool
  | .str _ => true
  | _ => false

def JsVal.isArray : JsVal → Bool
  | .arr _ => true
  | _ => false

/-- Model of `Array.prototype.includes` against a list of string constants, with
JavaScript strict equality: a non-string value never matches. -/
def jsIncludes (opts : List String) (v : JsVal) : Bool :=
  match v with
  | .str s => opts.contains s
  | _ => false

def ERROR_CODE : Nat := 400

def ERROR_STATUS : String := "INVALID_PIN_DATA"

def INVALID_CID : String := "Invalid cid"

def INVALID_MATCH : String :=
  "Match should be a string (i.e. \"exact\", \"iexact\", \"partial\", \"ipartial\")"

def INVALID_NAME : String := "Name should be a string"

def INVALID_STATUS : String := "Status should be an array of strings"

def UNPERMITTED_MATCH : String :=
  "Match should be \"exact\", \"iexact\", \"partial\", or \"ipartial\""

def UNPERMITTED_STATUS : String :=
  "Status should be \"queued\", \"pinning\", \"pinned\", or \"failed\""

def MATCH_OPTIONS : List String := ["exact", "iexact", "partial", "ipartial"]

def STATUS_OPTIONS : List String := ["queued", "pinning", "pinned", "failed"]

/-- Modelled from the spec: `normalizeCid`
(packages/api/src/utils/normalize-cid.js is not under `src/`): the spec's
CID Normalizer (4.1) — canonical version-1 form, failing with the invalid
identifier error on unparseable input — the same normalization performed
by `parseCid`. -/
def normalizeCid (s : String) : Except InvalidCidError String := parseCid s

/-- Whether `normalizeCid(cid)` throws for this parameter value
(`CID.parse` throws on every non-string argument). -/
def cidNormalizeFails : JsVal → Bool
  | .str s => match normalizeCid s with | .error _ => true | .ok _ => false
  | _ => true

/-- The observable outcome of the pins-API handler: a 200 JSON body, a
JSON error payload `reason`/`details` with a status code, or an uncaught
exception. -/
inductive HandlerResult
  | okText (body : String)
  | errorJson (code : Nat) (reason : String) (details : String)
  | thrown
deriving DecidableEq, Repr

/-- Translation of `pinsGet` (packages/api/src/pins.js): the list-pins handler,
translated clause by clause. The `match` validation only runs when the
value is truthy AND not a string; the `status` validation only runs when
the value is truthy AND not an array, in which case `status.every`
throws a `TypeError` (non-arrays have no `every` method), modelled as
`.thrown`. -/
def pinsGet (cid name matchParam status : JsVal) : HandlerResult :=
  if cid.truthy = true ∧ cidNormalizeFails cid = true then
    .errorJson ERROR_CODE ERROR_STATUS INVALID_CID
  else if name.truthy = true ∧ name.isString = false then
    .errorJson ERROR_CODE ERROR_STATUS INVALID_NAME
  else if matchParam.truthy = true ∧ matchParam.isString = false then
    (if jsIncludes MATCH_OPTIONS matchParam = false then
      .errorJson ERROR_CODE ERROR_STATUS UNPERMITTED_MATCH
    else
      .errorJson ERROR_CODE ERROR_STATUS INVALID_MATCH)
  else if status.truthy = true ∧ status.isArray = false then
    .thrown
  else
    .okText "OK"

/-- C9: at the failing inputs, `pinsGet` performs no value validation —
a string `match` outside the permitted set and a `status` array holding
an unpermitted value are both accepted with 200 OK (the guards are
inverted, so validation only runs for non-string `match` / non-array
`status`); a non-string `match` gets the UNPERMITTED_MATCH details, and a
non-array truthy `status` throws. -/
theorem pinsGet_unpermitted_values_accepted :
    pinsGet .undef .undef (.str "bogus") .undef = .okText "OK"
    ∧ pinsGet .undef .undef .undef (.arr [.str "bogus"]) = .okText "OK"
    ∧ pinsGet .undef .undef (.arr []) .undef
        = .errorJson 400 "INVALID_PIN_DATA" UNPERMITTED_MATCH
    ∧ pinsGet .undef .undef .undef (.str "queued") = .thrown := by
  exact ⟨rfl, rfl, rfl, rfl⟩

/-! ### status.js: statusGet -/

/-- A status record as returned by `db.getStatus` — the `cid` field the
handler overwrites, plus representative payload fields it passes
through. -/
structure StatusRecord where
  cid : String
  dagSize : Nat
  pinsCount : Nat
deriving DecidableEq, Repr

/-- Translation of `statusGet` (packages/api/src/status.js): normalize the requested
cid with `parseCid`, query the persistence layer with the normalized
form, return not-found when there is no record, and otherwise replace the
record's `cid` field with the original caller-supplied string. The second
component records the keys the persistence layer was queried with; a cid
that fails to parse propagates the `InvalidCidError`. -/
def statusGet (db : String → Option StatusRecord) (cid : String) :
    Except InvalidCidError (Option StatusRecord) × List String :=
  match parseCid cid with
  | .error e => (.error e, [])
  | .ok normalizedCid =>
    match db normalizedCid with
    | none => (.ok none, [normalizedCid])
    | some res => (.ok (some { res with cid := cid }), [normalizedCid])

/-- C10: when the requested cid parses, `statusGet` queries the
persistence layer exactly once, with the normalized (version-1) cid; a
missing record yields not-found (modelled as `.ok none`); a found record
is returned with its `cid` field replaced by the original caller-supplied
string, all other fields preserved. -/
theorem statusGet_normalizes_and_preserves_cid (db : String → Option StatusRecord)
    (cid n : String) (h : parseCid cid = .ok n) :
    (statusGet db cid).2 = [n]
    ∧ (db n = none → (statusGet db cid).1 = .ok none)
    ∧ (∀ r, db n = some r →
        (statusGet db cid).1 = .ok (some ⟨cid, r.dagSize, r.pinsCount⟩)) := by
  have hs : statusGet db cid = (match db n with
      | none => (Except.ok none, [n])
      | some res => (Except.ok (some { res with cid := cid }), [n])) := by
    rw [statusGet, h]
  refine ⟨?_, ?_, ?_⟩
  · rcases hd : db n with _ | r
    · rw [hs, hd]
    · rw [hs, hd]
  · intro hd
    rw [hs, hd]
  · intro r hd
    rw [hs, hd]

/-- A concrete persistence lookup storing one record under the
normalized cid. -/
def statusDb0 : String → Option StatusRecord := fun s =>
  if s = b32ZeroCid then some ⟨"stored-cid", 42, 1⟩ else none

/-- Witness for C10 at concrete inputs: a v0-encoded request cid is
looked up under its v1 normal form and echoed back verbatim in the
response. -/
theorem statusGet_witness :
    (statusGet statusDb0 qmZeroCid).2 = [b32ZeroCid]
    ∧ (statusGet statusDb0 qmZeroCid).1 = .ok (some ⟨qmZeroCid, 42, 1⟩) := by
  have h := statusGet_normalizes_and_preserves_cid statusDb0 qmZeroCid b32ZeroCid rfl
  exact ⟨h.1, h.2.2 ⟨"stored-cid", 42, 1⟩ rfl⟩

/-! ### car.js: the CAR validator `carStat` -/

/-- A content identifier as the CAR streaming code sees it: the
multicodec code (selects the decoder) plus an abstract hash identity
(CID equality). -/
structure CCid where
  code : Nat
  hash : Nat
deriving DecidableEq, Repr

/-- A link of a decoded root node; `tsize` is the producer-declared
cumulative child size (`Tsize`), optional. -/
structure DagLink where
  tsize : Option Nat
deriving DecidableEq, Repr

/-- A decoded IPLD node, abstracted to what `carStat` consumes: its
links. -/
structure DagNode where
  links : List DagLink
deriving DecidableEq, Repr

/-- A block of a CAR: its cid and payload bytes. -/
structure CarBlock where
  cid : CCid
  bytes : List Nat
deriving DecidableEq, Repr

/-- A parsed CAR: header roots plus the streamed blocks in order, and
the byte size of the enclosing blob (used by the local-add threshold in
`handleCarUpload`). -/
structure CarFile where
  roots : List CCid
  blocks : List CarBlock
  blobSize : Nat
deriving DecidableEq, Repr

/-- 1 MiB block-size cap (`MAX_BLOCK_SIZE` lives in constants.js, which
is not under `src/`; the value is fixed by the spec and by car.js's own
doc comment "1MiB"). -/
def MAX_BLOCK_SIZE : Nat := 1048576

def pbCode : Nat := 112

def rawCode : Nat := 85

def cborCode : Nat := 113

/-- From `decoders = [pb, raw, cbor]`: codec codes with a registered decoder. -/
def decoderCodes : List Nat := [pbCode, rawCode, cborCode]

inductive CarError
  | missingRoots
  | tooManyRoots
  | blockTooBig
  | emptyCar
  | missingRootBlock
  | incompleteDag
  | decodeFailed
deriving DecidableEq, Repr

structure CarStat where
  size : Nat
  blocks : Nat
deriving DecidableEq, Repr

/-- The block-streaming loop of `carStat`: per block, enforce the size
cap, capture the first block whose cid equals the root, and accumulate
the byte-length sum and the block count. -/
def carScan (rootCid : CCid) :
    List CarBlock → Option CarBlock → Nat → Nat → Except CarError (Option CarBlock × Nat × Nat)
  | [], rawRootBlock, blocks, size => .ok (rawRootBlock, blocks, size)
  | b :: rest, rawRootBlock, blocks, size =>
    if b.bytes.length > MAX_BLOCK_SIZE then .error .blockTooBig
    else carScan rootCid rest
      (if rawRootBlock.isNone && b.cid == rootCid then some b else rawRootBlock)
      (blocks + 1) (size + b.bytes.length)

/-- Translation of `cumulativeSize` (car.js): the root node's own encoded length plus
the declared `Tsize` of each link (0 when absent). -/
def cumulativeSize (pbNodeBytes : List Nat) (pbNode : DagNode) : Nat :=
  pbNodeBytes.length + pbNode.links.foldl (fun acc curr => acc + curr.tsize.getD 0) 0

/-- The decode step of `carStat`, on the result of the external decoder
call (`none` models a decoder throw): reject a single-block CAR whose
root has links, and for a dag-pb root override the raw streamed sum with
the cumulative size. -/
def carStatDecoded (rootCid : CCid) (rootBlock : CarBlock) (blocks size : Nat) :
    Option DagNode → Except CarError CarStat
  | none => .error .decodeFailed
  | some value =>
    if blocks == 1 && value.links.length > 0 then .error .incompleteDag
    else
      .ok ⟨if rootCid.code == pbCode then cumulativeSize rootBlock.bytes value else size, blocks⟩

/-- The codec-registry step of `carStat`: decode the root block when its
codec has a registered decoder, else report the raw accumulated sum. -/
def carStatDecode (decode : Nat → List Nat → Option DagNode) (rootCid : CCid)
    (rootBlock : CarBlock) (blocks size : Nat) : Except CarError CarStat :=
  if decoderCodes.contains rootCid.code then
    carStatDecoded rootCid rootBlock blocks size (decode rootCid.code rootBlock.bytes)
  else .ok ⟨size, blocks⟩

/-- The post-streaming checks of `carStat` on the scan outcome: `empty
CAR` when zero blocks were streamed, then `missing root block` when the
root block never appeared, then the decode step. -/
def carStatScanned (decode : Nat → List Nat → Option DagNode) (rootCid : CCid) :
    Except CarError (Option CarBlock × Nat × Nat) → Except CarError CarStat
  | .error e => .error e
  | .ok (none, blocks, _) =>
    if blocks == 0 then .error .emptyCar else .error .missingRootBlock
  | .ok (some rootBlock, blocks, size) =>
    if blocks == 0 then .error .emptyCar
    else carStatDecode decode rootCid rootBlock blocks size

/-- Body of `carStat` over the parsed header roots: root-count checks, then the
streaming loop, then the post-streaming stages. -/
def carStatWithRoots (decode : Nat → List Nat → Option DagNode) :
    List CCid → List CarBlock → Except CarError CarStat
  | [], _ => .error .missingRoots
  | rootCid :: moreRoots, blocks =>
    if moreRoots.length > 0 then .error .tooManyRoots
    else carStatScanned decode rootCid (carScan rootCid blocks none 0 0)

/-- Translation of `carStat` (car.js): validate a CAR stream and compute its size and
block count; staged exactly as the source function is (root-count checks,
block streaming, zero-block / missing-root-block checks, decode). -/
def carStat (decode : Nat → List Nat → Option DagNode) (car : CarFile) :
    Except CarError CarStat :=
  carStatWithRoots decode car.roots car.blocks

theorem carScan_ok (rootCid : CCid) (blocks : List CarBlock)
    (h : ∀ b ∈ blocks, b.bytes.length ≤ MAX_BLOCK_SIZE) :
    ∀ rr k s, carScan rootCid blocks rr k s
      = .ok (rr.elim (blocks.find? (fun b => b.cid == rootCid)) some, k + blocks.length,
          s + (blocks.map (fun b => b.bytes.length)).sum) := by
  induction blocks with
  | nil =>
    intro rr k s
    rcases rr with _ | r <;> simp [carScan]
  | cons b rest ih =>
    intro rr k s
    have hble : ¬ (b.bytes.length > MAX_BLOCK_SIZE) := by
      have := h b (List.mem_cons_self b rest)
      omega
    rw [carScan, if_neg hble, ih (fun x hx => h x (List.mem_cons_of_mem _ hx))]
    have hk : k + 1 + rest.length = k + (rest.length + 1) := by omega
    have hs : s + b.bytes.length + (rest.map (fun x => x.bytes.length)).sum
        = s + ((b :: rest).map (fun x => x.bytes.length)).sum := by
      simp [List.map_cons, List.sum_cons]
      omega
    rcases rr with _ | r
    · by_cases hbc : (b.cid == rootCid) = true
      · simp only [Option.isNone_none, Bool.true_and, hbc, if_pos, Option.elim_some,
          Option.elim_none]
        have hfind : (b :: rest).find? (fun x => x.cid == rootCid) = some b := by
          rw [List.find?]
          rw [hbc]
        rw [hfind]
        simp only [List.length_cons, hk]
        rw [← hs]
      · simp only [Option.isNone_none, Bool.true_and, hbc, Bool.false_eq_true, if_false,
          Option.elim_none]
        have hfind : (b :: rest).find? (fun x => x.cid == rootCid)
            = rest.find? (fun x => x.cid == rootCid) := by
          rw [List.find?]
          rw [show (b.cid == rootCid) = false from by simpa using hbc]
        rw [hfind]
        simp only [List.length_cons, hk]
        rw [← hs]
    · simp only [Option.isNone_some, Bool.false_and, Bool.false_eq_true, if_false,
        Option.elim_some]
      simp only [List.length_cons, hk]
      rw [← hs]

theorem carScan_err (rootCid : CCid) (blocks : List CarBlock)
    (h : ∃ b ∈ blocks, b.bytes.length > MAX_BLOCK_SIZE) :
    ∀ rr k s, carScan rootCid blocks rr k s = .error .blockTooBig := by
  induction blocks with
  | nil =>
    rcases h with ⟨b, hb, _⟩
    simp at hb
  | cons b rest ih =>
    intro rr k s
    by_cases hb : b.bytes.length > MAX_BLOCK_SIZE
    · rw [carScan, if_pos hb]
    · rw [carScan, if_neg hb]
      apply ih
      rcases h with ⟨x, hx, hxl⟩
      rcases List.mem_cons.mp hx with hxb | hx
      · exfalso
        rw [hxb] at hxl
        exact hb hxl
      · exact ⟨x, hx, hxl⟩

theorem foldl_add_tsize (ls : List DagLink) :
    ∀ a : Nat, ls.foldl (fun acc curr => acc + curr.tsize.getD 0) a
      = a + (ls.map (fun l => l.tsize.getD 0)).sum := by
  induction ls with
  | nil => intro a; simp
  | cons l ls ih =>
    intro a
    rw [List.foldl_cons, ih, List.map_cons, List.sum_cons]
    omega

/-- C4: a CAR whose parsed header declares zero roots fails with
`MissingRoot` ('missing roots'), and one declaring more than one root
fails with `TooManyRoots` ('too many roots') — in both cases whatever
the blocks are, since the checks precede any block processing. -/
theorem carStat_root_count_errors (decode : Nat → List Nat → Option DagNode) (car : CarFile) :
    (car.roots = [] → carStat decode car = .error .missingRoots)
    ∧ (1 < car.roots.length → carStat decode car = .error .tooManyRoots) := by
  constructor
  · intro h
    rw [carStat, h, carStatWithRoots]
  · intro h
    rcases hr : car.roots with _ | ⟨r, rs⟩
    · rw [hr] at h
      simp at h
    · rw [hr] at h
      simp only [List.length_cons] at h
      rw [carStat, hr, carStatWithRoots, if_pos (by omega)]

/-- Witness for C4 at concrete CARs: zero roots and two roots, with a
block present in each (its processing never happens). -/
theorem carStat_root_count_errors_witness :
    carStat (fun _ _ => none) ⟨[], [⟨⟨112, 0⟩, [1]⟩], 1⟩ = .error .missingRoots
    ∧ carStat (fun _ _ => none) ⟨[⟨112, 0⟩, ⟨113, 1⟩], [⟨⟨112, 0⟩, [1]⟩], 1⟩
        = .error .tooManyRoots := by
  exact ⟨(carStat_root_count_errors (fun _ _ => none) _).1 rfl,
    (carStat_root_count_errors (fun _ _ => none) _).2 (by decide)⟩

/-- C6: a single-root CAR containing any block over the 1 MiB cap fails
with `BlockTooLarge`, regardless of where in the stream that block sits —
the check runs on each block as it is streamed, before the empty-archive
and missing-root-block checks (the root-count checks of C4 come first,
hence the single-root hypothesis). -/
theorem carStat_block_too_large (decode : Nat → List Nat → Option DagNode) (car : CarFile)
    (r : CCid) (h1 : car.roots = [r])
    (h2 : ∃ b ∈ car.blocks, b.bytes.length > MAX_BLOCK_SIZE) :
    carStat decode car = .error .blockTooBig := by
  rw [carStat, h1, carStatWithRoots, if_neg (by simp), carScan_err r car.blocks h2,
    carStatScanned]

/-- Witness for C6: an oversized block in the middle of the stream, with
the root block present and first. -/
theorem carStat_block_too_large_witness :
    carStat (fun _ _ => none)
      ⟨[⟨112, 0⟩], [⟨⟨112, 0⟩, [1]⟩, ⟨⟨85, 2⟩, List.replicate (MAX_BLOCK_SIZE + 1) 0⟩,
        ⟨⟨85, 3⟩, [2]⟩], 9⟩ = .error .blockTooBig := by
  refine carStat_block_too_large (fun _ _ => none) _ ⟨112, 0⟩ rfl
    ⟨⟨⟨85, 2⟩, List.replicate (MAX_BLOCK_SIZE + 1) 0⟩, ?_, ?_⟩
  · show _ ∈ ([⟨⟨112, 0⟩, [1]⟩, ⟨⟨85, 2⟩, List.replicate (MAX_BLOCK_SIZE + 1) 0⟩,
      ⟨⟨85, 3⟩, [2]⟩] : List CarBlock)
    exact List.mem_cons_of_mem _ (List.mem_cons_self _ _)
  · show (List.replicate (MAX_BLOCK_SIZE + 1) 0).length > MAX_BLOCK_SIZE
    rw [List.length_replicate]
    omega

/-- C5: a single-root CAR whose only block is the root, whose codec has a
registered decoder and whose decoded node has at least one link, fails
with `IncompleteDag` ('CAR must contain at least one non-root block').
The block must respect the size cap, whose check comes first. -/
theorem carStat_single_linked_root_incomplete (decode : Nat → List Nat → Option DagNode)
    (car : CarFile) (rootCid : CCid) (b : CarBlock) (value : DagNode)
    (h1 : car.roots = [rootCid]) (h2 : car.blocks = [b]) (h3 : b.cid = rootCid)
    (h4 : b.bytes.length ≤ MAX_BLOCK_SIZE)
    (h5 : decoderCodes.contains rootCid.code = true)
    (h6 : decode rootCid.code b.bytes = some value)
    (h7 : value.links ≠ []) :
    carStat decode car = .error .incompleteDag := by
  rw [carStat, h1, h2, carStatWithRoots, if_neg (by simp)]
  have hbeq : (b.cid == rootCid) = true := by simp [h3]
  have hscan : carScan rootCid [b] none 0 0 = .ok (some b, 1, b.bytes.length) := by
    rw [carScan, if_neg (by omega)]
    rw [carScan]
    simp [hbeq]
  rw [hscan, carStatScanned, if_neg (by simp), carStatDecode, if_pos h5, h6, carStatDecoded]
  have hlink : (1 == 1 && value.links.length > 0) = true := by
    simp [List.length_pos, h7]
  rw [if_pos hlink]

/-- A decoder oracle for the concrete examples: dag-cbor bytes `[9, 9]`
decode to a one-link node. -/
def exDecodeCbor : Nat → List Nat → Option DagNode := fun c bs =>
  if c = 113 ∧ bs = [9, 9] then some ⟨[⟨none⟩]⟩ else none

/-- Witness for C5: a one-block CAR whose dag-cbor root decodes to a node
with one link. -/
theorem carStat_single_linked_root_incomplete_witness :
    carStat exDecodeCbor ⟨[⟨113, 3⟩], [⟨⟨113, 3⟩, [9, 9]⟩], 2⟩ = .error .incompleteDag := by
  exact carStat_single_linked_root_incomplete exDecodeCbor _ ⟨113, 3⟩ ⟨⟨113, 3⟩, [9, 9]⟩
    ⟨[⟨none⟩]⟩ rfl rfl rfl (by decide) (by decide) rfl (by decide)

/-- C3 (amended): whenever `carStat` succeeds on a CAR whose root block
decodes with the dag-pb codec, the reported size is the root block's
encoded byte length plus the sum of the declared per-link child sizes
(0 when absent), overriding the raw streamed sum — for a partial CAR
with at least one non-root block just as for the full DAG. (The
only-root-block case with links does not reach this computation: it
fails with `IncompleteDag`, see C5.) -/
theorem carStat_pb_cumulative_size (decode : Nat → List Nat → Option DagNode)
    (car : CarFile) (rootCid : CCid) (b : CarBlock) (value : DagNode)
    (h1 : car.roots = [rootCid])
    (h2 : ∀ x ∈ car.blocks, x.bytes.length ≤ MAX_BLOCK_SIZE)
    (h3 : car.blocks.find? (fun x => x.cid == rootCid) = some b)
    (h4 : rootCid.code = pbCode)
    (h5 : decode rootCid.code b.bytes = some value)
    (h6 : ¬ (car.blocks.length = 1 ∧ value.links ≠ [])) :
    carStat decode car
      = .ok ⟨b.bytes.length + (value.links.map (fun l => l.tsize.getD 0)).sum,
          car.blocks.length⟩ := by
  rw [carStat, h1, carStatWithRoots, if_neg (by simp), carScan_ok rootCid car.blocks h2]
  simp only [Option.elim_none, Nat.zero_add]
  rw [h3, carStatScanned]
  have hmem : b ∈ car.blocks := List.mem_of_find?_eq_some h3
  have hpos : 0 < car.blocks.length := List.length_pos_of_mem hmem
  have hlen0 : ¬ (car.blocks.length == 0) = true := by
    intro hq
    have hq0 : car.blocks.length = 0 := by simpa using hq
    omega
  rw [if_neg hlen0, carStatDecode, if_pos (by rw [h4]; decide), h5, carStatDecoded]
  have hinc : (car.blocks.length == 1 && value.links.length > 0) = false := by
    rcases eq_or_ne car.blocks.length 1 with he | hne
    · have hlk : value.links = [] := by
        by_contra hc
        exact h6 ⟨he, hc⟩
      simp [hlk]
    · simp [hne]
  rw [hinc, if_neg (by simp), if_pos (by simp [h4]), cumulativeSize, foldl_add_tsize,
    Nat.zero_add]

/-- Blocks, a dag-pb root of encoded length 50 with two links of declared
sizes 100 and 200, and a decoder oracle for them. -/
def exRootCid : CCid := ⟨112, 0⟩

def exRootBytes : List Nat := List.replicate 50 7

def exRootBlock : CarBlock := ⟨exRootCid, exRootBytes⟩

def exChildBlock : CarBlock := ⟨⟨85, 1⟩, [1, 2, 3]⟩

def exNode : DagNode := ⟨[⟨some 100⟩, ⟨some 200⟩]⟩

def exDecode : Nat → List Nat → Option DagNode := fun c bs =>
  if c = 112 ∧ bs = exRootBytes then some exNode else none

/-- C3 counterexample: the CAR that contains only that root block is
rejected with `IncompleteDag`; `carStat` does not return the cumulative
size 350 (or any size) for the 1-block shard. -/
theorem carStat_one_block_pb_shard_rejected :
    carStat exDecode ⟨[exRootCid], [exRootBlock], 50⟩ = .error .incompleteDag
    ∧ ∀ s : CarStat, carStat exDecode ⟨[exRootCid], [exRootBlock], 50⟩ ≠ .ok s := by
  have h : carStat exDecode ⟨[exRootCid], [exRootBlock], 50⟩ = .error .incompleteDag := by
    rfl
  refine ⟨h, ?_⟩
  intro s hs
  rw [h] at hs
  exact Except.noConfusion hs

/-- Witness for C3 (amended) at a concrete partial CAR: root block (50
bytes, links 100 and 200) plus one child block gives size 350 and 2
blocks. -/
theorem carStat_pb_cumulative_size_witness :
    carStat exDecode ⟨[exRootCid], [exRootBlock, exChildBlock], 60⟩ = .ok ⟨350, 2⟩ := by
  exact carStat_pb_cumulative_size exDecode ⟨[exRootCid], [exRootBlock, exChildBlock], 60⟩
    exRootCid exRootBlock exNode rfl (by decide) (by decide) rfl (by decide) (by decide)

/-! ### car.js: `handleCarUpload` and its reconciliation task -/

/-- Modelled from the spec / car.js's own comment: `LOCAL_ADD_THRESHOLD`
(constants.js is not under `src/`); "When >2.5MB, use local add". -/
def LOCAL_ADD_THRESHOLD : Nat := 2621440

/-- Duration between status check polls in ms (car.js). -/
def PIN_STATUS_CHECK_INTERVAL : Nat := 5000

/-- Max time in ms to spend polling for an OK status (car.js). -/
def MAX_PIN_STATUS_CHECK_TIME : Nat := 30000

/-- Pin statuses considered OK (car.js). -/
def PIN_OK_STATUS : List String := ["Pinned", "Pinning", "PinQueued"]

/-- Times to retry the CREATE_UPLOAD transaction after the first
failure (car.js). -/
def CREATE_UPLOAD_RETRIES : Nat := 4

/-- One entry of the cluster's `status().peerMap`. -/
structure PeerEntry where
  peerId : String
  peerName : String
  status : String
deriving DecidableEq, Repr

/-- Modelled from the spec: `toPinStatusEnum`
(packages/api/src/utils/pin.js is not under `src/`): maps a cluster
tracker status onto the DB pin-status enum — the spec's "small closed
set of replica states (e.g. unpinned, queued, pinning, pinned,
sharded)"; an unknown status passes through unchanged. -/
def toPinStatusEnum (s : String) : String :=
  if s = "undefined" then "Undefined"
  else if s = "cluster_error" then "ClusterError"
  else if s = "pin_error" then "PinError"
  else if s = "unpin_error" then "UnpinError"
  else if s = "pinned" then "Pinned"
  else if s = "pinning" then "Pinning"
  else if s = "unpinning" then "Unpinning"
  else if s = "unpinned" then "Unpinned"
  else if s = "remote" then "Remote"
  else if s = "pin_queued" then "PinQueued"
  else if s = "unpin_queued" then "UnpinQueued"
  else if s = "sharded" then "Sharded"
  else s

/-- A pin record built by `toPins` (car.js). -/
structure UpPin where
  status : String
  peerId : String
  peerName : String
deriving DecidableEq, Repr

/-- Translation of `toPins` (car.js): flatten the peerMap into pin records. -/
def toPins (peerMap : List PeerEntry) : List UpPin :=
  peerMap.map (fun e => ⟨toPinStatusEnum e.status, e.peerId, e.peerName⟩)

/-- The externally observable calls `handleCarUpload` and its detached
tasks make, in order. -/
inductive Call
  | clusterAdd (localAdd : Bool)
  | clusterStatus (cid : String)
  | dbCreateUpload (cid : String) (dagSize : Nat)
  | dbIncrementStorage (amount : Nat)
  | dbCreateOrUpdatePin (contentId : String) (pin : UpPin)
deriving DecidableEq, Repr

structure UploadRecord where
  contentId : String
deriving DecidableEq, Repr

/-- The environment of one `handleCarUpload` request: the decoder
registry, the cluster's add result, the cluster's `status()` responses
(`statusPeerMap 0` is the synchronous call, `statusPeerMap 1, 2, …` the
successive polls of the reconciliation task), the DB's answer to each
attempt of the retried CREATE_UPLOAD, and the successive `Date.now()`
readings inside the reconciliation task (`clock 0` is `start`, `clock k`
the reading of the k-th while-condition check). -/
structure UploadEnv where
  decode : Nat → List Nat → Option DagNode
  addResultCid : String
  statusPeerMap : Nat → List PeerEntry
  createUploadResult : Nat → Except Unit UploadRecord
  clock : Nat → Nat

inductive TaskResult
  | returned
  | noReplicas
  | fuelOut
deriving DecidableEq, Repr

/-- The reconciliation task scheduled by `handleCarUpload` (car.js,
translated statement by statement):

    const start = Date.now()
    while (Date.now() - start > MAX_PIN_STATUS_CHECK_TIME) {
      await sleep(PIN_STATUS_CHECK_INTERVAL)
      const pins = toPins((await cluster.status(cid)).peerMap)
      if (!pins.length) throw new Error('not pinning on any node')
      const okPins = pins.filter(p => PIN_OK_STATUS.includes(p.status))
      if (!okPins.length) continue
      for (const pin of okPins) await db.query(CREATE_OR_UPDATE_PIN, …)
      return
    }

`k` indexes the `Date.now()` readings (iteration k's condition reads
`clock k`), `j` indexes the `cluster.status` calls, `fuel` bounds the
iterations modelled, and the accumulator records the calls made. The
truncated Nat subtraction agrees with the JS comparison also for a
reading below `start` (both make the condition false). -/
def pinStatusLoop (env : UploadEnv) (contentId cid : String) :
    Nat → Nat → Nat → List Call → TaskResult × List Call
  | 0, _, _, acc => (.fuelOut, acc)
  | fuel + 1, k, j, acc =>
    if env.clock k - env.clock 0 > MAX_PIN_STATUS_CHECK_TIME then
      let pins := toPins (env.statusPeerMap j)
      let acc' := acc ++ [Call.clusterStatus cid]
      if pins.length = 0 then (.noReplicas, acc')
      else
        let okPins := pins.filter (fun p => PIN_OK_STATUS.contains p.status)
        if okPins.length = 0 then pinStatusLoop env contentId cid fuel (k + 1) (j + 1) acc'
        else (.returned, acc' ++ okPins.map (fun p => Call.dbCreateOrUpdatePin contentId p))
    else (.returned, acc)

/-- Entry point of the reconciliation task: first condition check is
`Date.now()` reading 1; `cluster.status` calls continue at index 1
(index 0 was the synchronous call in `handleCarUpload`). -/
def pinStatusTask (env : UploadEnv) (contentId cid : String) (fuel : Nat) :
    TaskResult × List Call :=
  pinStatusLoop env contentId cid fuel 1 1 []

/-- Model of `p-retry` around the CREATE_UPLOAD mutation: the original call plus
up to `CREATE_UPLOAD_RETRIES` retries; first success, or the last
failure; also returns the number of attempts made. -/
def retryGo (f : Nat → Except Unit UploadRecord) : Nat → Nat → Except Unit UploadRecord × Nat
  | i, 0 => (f i, i + 1)
  | i, fuel + 1 =>
    match f i with
    | .ok r => (.ok r, i + 1)
    | .error _ => retryGo f (i + 1) fuel

def runRetry (f : Nat → Except Unit UploadRecord) : Except Unit UploadRecord × Nat :=
  retryGo f 0 CREATE_UPLOAD_RETRIES

inductive UploadError
  | invalidCar (e : CarError)
  | noReplicas
  | dbError
deriving DecidableEq, Repr

/-- The outcome of one `handleCarUpload` request: the response (the cid
on success), the synchronous calls made while serving the request, the
calls made afterwards by the detached `waitUntil` tasks, and the
reconciliation task's result when one was scheduled. -/
structure UploadOutcome where
  response : Except UploadError String
  actions : List Call
  taskActions : List Call
  reconcile : Option TaskResult
deriving Repr

/-- The tail of `handleCarUpload` after the CREATE_UPLOAD retry loop:
on DB failure the error propagates; on success the response is sent and
the detached tasks run — the storage-usage increment always, the
reconciliation task only when no initial pin has an OK status. -/
def handleCarUploadStored (env : UploadEnv) (cid : String) (dagSize : Nat)
    (prevActs : List Call) (pins : List UpPin) (fuel : Nat) :
    Except Unit UploadRecord × Nat → UploadOutcome
  | (.error _, attempts) =>
    ⟨.error .dbError, prevActs ++ List.replicate attempts (.dbCreateUpload cid dagSize),
      [], none⟩
  | (.ok upload, attempts) =>
    let acts := prevActs ++ List.replicate attempts (.dbCreateUpload cid dagSize)
    let storage := [Call.dbIncrementStorage dagSize]
    if pins.any (fun p => PIN_OK_STATUS.contains p.status) then
      ⟨.ok cid, acts, storage, none⟩
    else
      let t := pinStatusTask env upload.contentId cid fuel
      ⟨.ok cid, acts, storage ++ t.2, some t.1⟩

/-- Stage of `handleCarUpload` after CAR validation: `cluster.add` (local add
above the size threshold), one synchronous `cluster.status`, the
`NoReplicas` check ('not pinning on any node'), then the stored stage. -/
def handleCarUploadChecked (env : UploadEnv) (car : CarFile) (fuel : Nat) :
    Except CarError CarStat → UploadOutcome
  | .error e => ⟨.error (.invalidCar e), [], [], none⟩
  | .ok stat =>
    let dagSize := stat.size
    let cid := env.addResultCid
    let acts := [Call.clusterAdd (car.blobSize > LOCAL_ADD_THRESHOLD),
      Call.clusterStatus cid]
    let pins := toPins (env.statusPeerMap 0)
    if pins.length = 0 then ⟨.error .noReplicas, acts, [], none⟩
    else handleCarUploadStored env cid dagSize acts pins fuel (runRetry env.createUploadResult)

/-- Translation of `handleCarUpload` (car.js): `carStat` first; a validation failure
propagates before anything else runs. -/
def handleCarUpload (env : UploadEnv) (car : CarFile) (fuel : Nat) : UploadOutcome :=
  handleCarUploadChecked env car fuel (carStat env.decode car)

/-- C7: when CAR validation fails, the failure propagates to the caller
before any side effect: no cluster add, no cluster status query, no
persistence write, no detached task. -/
theorem handleCarUpload_fail_before_write (env : UploadEnv) (car : CarFile) (fuel : Nat)
    (e : CarError) (h : carStat env.decode car = .error e) :
    handleCarUpload env car fuel = ⟨.error (.invalidCar e), [], [], none⟩ := by
  rw [handleCarUpload, h, handleCarUploadChecked]

/-- An environment for the C7 witness. -/
def envFail : UploadEnv :=
  ⟨fun _ _ => none, "bafy-added", fun _ => [], fun _ => .error (), fun k => k⟩

/-- Witness for C7: a rootless CAR is rejected with no calls made. -/
theorem handleCarUpload_fail_before_write_witness :
    handleCarUpload envFail ⟨[], [⟨⟨112, 0⟩, [1]⟩], 1⟩ 9
      = ⟨.error (.invalidCar .missingRoots), [], [], none⟩ :=
  handleCarUpload_fail_before_write envFail ⟨[], [⟨⟨112, 0⟩, [1]⟩], 1⟩ 9 .missingRoots rfl

/-- The C1 failing input: a cluster that reports one not-yet-OK pin on
the synchronous status call (so the reconciliation task is scheduled)
and zero peers on every poll, a DB that accepts the upload, and
`Date.now()` readings 1 ms apart (any realistic clock: the first
while-condition check happens well within 30 s of `start`). -/
def envC1 : UploadEnv :=
  ⟨fun _ _ => some ⟨[]⟩, "bafy-added",
    fun j => if j = 0 then [⟨"peer-1", "node-1", "unpinned"⟩] else [],
    fun _ => .ok ⟨"content-1"⟩, fun k => k⟩

/-- C1: evaluating car.js's reconciliation loop at the failing input.
The while condition `Date.now() - start > MAX_PIN_STATUS_CHECK_TIME` is
false on entry (1 > 30000), so the scheduled task exits immediately:
zero cluster polls, zero persistence calls, and no NoReplicas error is
ever thrown, although the cluster reports zero peers on what would have
been the first poll — and this holds for every fuel bound, i.e. the loop
never re-polls at all. -/
theorem pinStatusTask_never_polls :
    handleCarUpload envC1 ⟨[⟨85, 9⟩], [⟨⟨85, 9⟩, [7, 7, 7]⟩], 3⟩ 1000
      = ⟨.ok "bafy-added",
          [.clusterAdd false, .clusterStatus "bafy-added", .dbCreateUpload "bafy-added" 3],
          [.dbIncrementStorage 3], some .returned⟩
    ∧ pinStatusTask envC1 "content-1" "bafy-added" 1000 = (.returned, [])
    ∧ (∀ fuel : Nat, (pinStatusTask envC1 "content-1" "bafy-added" (fuel + 1)).2 = []) := by
  refine ⟨rfl, rfl, fun fuel => rfl⟩

/-- Witness for C2 (amended) at concrete inputs, via the precedence
theorem: `Pinning` beats `PinQueued`, and the empty row set maps to
`queued`. -/
theorem getPinningAPIStatus_precedence_witness :
    getPinningAPIStatus [⟨"Pinning"⟩, ⟨"PinQueued"⟩] = "pinning"
    ∧ getPinningAPIStatus [] = "queued" := by
  refine ⟨?_, ?_⟩
  · exact (getPinningAPIStatus_precedence [⟨"Pinning"⟩, ⟨"PinQueued"⟩]).2.2.1.mpr
      (by decide)
  · exact (getPinningAPIStatus_precedence []).2.2.2.1.mpr (by decide)
